import Mathlib

/-!
Verification of the MFCC + DTW audio matching core (audio_matcher.cpp).

The development shallowly embeds the numeric pipeline of the C++ source:
cosine similarity, the DTW dynamic program, the iterative radix-2
Cooley-Tukey FFT, the power spectrum, pre-emphasis, Hamming windowing,
the mel filterbank construction, log-compressed filterbank application
and the cosine-basis DCT.  Real (float/double) arithmetic is modelled by
exact real arithmetic; the float value +infinity used to initialise the
DTW boundary, and the -infinity a degenerate score can reach, are
modelled by the extended reals EReal, whose arithmetic on (finite) +
(plus or minus infinity) agrees with IEEE arithmetic at every operation
the program performs.
-/

namespace AudioMatcher

open Finset

/-- The accumulation loop of cosineSimilarity (audio_matcher.cpp lines
187-191): the sum of v1[i] * v2[i] over the indices of v1.  The loop
runs over the common size of the two vectors (their sizes are equal
whenever the loop is reached), so dot, norm1 and norm2 are sumMul v1 v2,
sumMul v1 v1 and sumMul v2 v2 respectively. -/
noncomputable def sumMul (v1 v2 : List ℝ) : ℝ :=
  ∑ i ∈ Finset.range v1.length, v1.getD i 0 * v2.getD i 0

/-- Embedding of cosineSimilarity (audio_matcher.cpp lines 184-194).
The C++ returns 0 when the two vectors differ in size; otherwise it
accumulates dot, norm1, norm2 over the common index range, forms
denom = sqrt(norm1) * sqrt(norm2), and returns 0 when denom == 0 and
dot / denom otherwise. -/
noncomputable def cosineSimilarity (v1 v2 : List ℝ) : ℝ :=
  if v1.length ≠ v2.length then 0
  else if Real.sqrt (sumMul v1 v1) * Real.sqrt (sumMul v2 v2) = 0 then 0
  else sumMul v1 v2 / (Real.sqrt (sumMul v1 v1) * Real.sqrt (sumMul v2 v2))

/-- Embedding of the DTW cost table of computeDTW (lines 218-225).
The C++ allocates dp of size (len1+1) x (len2+1) filled with the float
+infinity, sets dp[0][0] = 0, and fills row by row with
dp[i][j] = (1 - cosineSimilarity(seq1[i-1], seq2[j-1]))
           + min(dp[i-1][j], dp[i][j-1], dp[i-1][j-1]).
Each cell only depends on cells with smaller indices, so the loop is
equivalent to this recurrence.  Cells of row 0 and column 0 other than
(0,0) keep their initial value +infinity, modelled by the EReal top. -/
noncomputable def dp (s1 s2 : List (List ℝ)) : ℕ → ℕ → EReal
  | 0, 0 => 0
  | _ + 1, 0 => ⊤
  | 0, _ + 1 => ⊤
  | i + 1, j + 1 =>
      ((1 - cosineSimilarity (s1.getD i []) (s2.getD j [])) : ℝ) +
        min (dp s1 s2 i (j + 1)) (min (dp s1 s2 (i + 1) j) (dp s1 s2 i j))

/-- Embedding of computeDTW (lines 197-227): after filling the table the
function returns 1 - dp[len1][len2] / (len1 + len2), a float; infinite
float values are modelled by EReal. -/
noncomputable def computeDTW (s1 s2 : List (List ℝ)) : EReal :=
  1 - dp s1 s2 s1.length s2.length / (((s1.length + s2.length : ℕ) : ℝ) : EReal)

/-- Reversal of the low lg bits of a natural number.  The C++ fft
computes, for each index i, the number rev whose bit (lg_n - 1 - j) is
bit j of i (lines 30-34). -/
def revBits : ℕ → ℕ → ℕ
  | 0, _ => 0
  | l + 1, i => 2 ^ l * (i % 2) + revBits l (i / 2)

/-- Result of the bit-reversal swap pass of the C++ fft (lines 30-36).
The loop swaps a[i] and a[rev i] once for every pair i < rev i; since
rev is an involution on the index range, the array afterwards holds
a[rev i] at position i. -/
def bitRevPerm (lg : ℕ) (a : ℕ → ℂ) : ℕ → ℂ :=
  fun i => a (revBits lg i)

/-- Twiddle factor wlen of the C++ fft (lines 39-40): the complex number
with real part cos(ang) and imaginary part sin(ang), for
ang = 2 * pi / len * (invert ? -1 : 1). -/
noncomputable def wroot (invert : Bool) (len : ℕ) : ℂ :=
  Complex.ofReal (Real.cos (2 * Real.pi / len * (if invert then -1 else 1))) +
    Complex.ofReal (Real.sin (2 * Real.pi / len * (if invert then -1 else 1))) * Complex.I

/-- One butterfly pass of the C++ fft for block length len (lines
41-49).  For an index t with j = t % len < len / 2 the loop stores
u + w^j * v where u, v are the old values at t and t + len/2; at the
partner index it stores u - w^j * v.  The running product w starts at 1
and is multiplied by wlen once per j, so at step j it equals wlen ^ j. -/
noncomputable def butterflyStage (len : ℕ) (w : ℂ) (a : ℕ → ℂ) : ℕ → ℂ :=
  fun t =>
    if t % len < len / 2 then a t + w ^ (t % len) * a (t + len / 2)
    else a (t - len / 2) - w ^ (t % len - len / 2) * a t

/-- The stage loop of the C++ fft (lines 38-50): butterfly passes for
len = 2, 4, ..., 2^count, in ascending order. -/
noncomputable def fftStages (invert : Bool) : ℕ → (ℕ → ℂ) → (ℕ → ℂ)
  | 0, a => a
  | l + 1, a => butterflyStage (2 ^ (l + 1)) (wroot invert (2 ^ (l + 1))) (fftStages invert l a)

/-- Embedding of the C++ fft (lines 25-55) on an array of size n.  The
C++ computes lg_n as the least l with 2^l at least n (the while loop at
line 28), which is Nat.clog 2 n; the stage loop runs while len is at
most n, i.e. for the Nat.log 2 n block sizes 2, 4, ..., and the two
counts agree when n is a power of two.  When invert is set every entry
is finally divided by n (lines 52-54). -/
noncomputable def fft (n : ℕ) (invert : Bool) (a : ℕ → ℂ) : ℕ → ℂ :=
  let b := fftStages invert (Nat.log 2 n) (bitRevPerm (Nat.clog 2 n) a)
  fun t => if invert then b t / (n : ℂ) else b t

/-- Embedding of power_spectrum (lines 58-70): zero-pad the real frame
to the least power of two fft_size that is at least the frame length
(the while loop at line 61 computes 2 ^ Nat.clog 2 n), run the forward
fft, and return the fft_size/2 + 1 values |X_k|^2 / fft_size. -/
noncomputable def power_spectrum (frame : List ℝ) : List ℝ :=
  let n := frame.length
  let fft_size := 2 ^ Nat.clog 2 n
  let fft_input : ℕ → ℂ := fun i => if i < n then ((frame.getD i 0 : ℝ) : ℂ) else 0
  let out := fft fft_size false fft_input
  (List.range (fft_size / 2 + 1)).map fun i => Complex.normSq (out i) / fft_size

/-- Embedding of pre_emphasis (lines 73-77).  The C++ loop runs from the
last index down to index 1 doing signal[i] -= 0.95f * signal[i-1], so
when index i is updated the neighbour i-1 still holds its original
value: the result at i > 0 is signal[i] - 0.95 * signal[i-1] over the
original array, and index 0 is unchanged. -/
noncomputable def pre_emphasis (signal : List ℝ) : List ℝ :=
  (List.range signal.length).map fun i =>
    if i = 0 then signal.getD 0 0 else signal.getD i 0 - 0.95 * signal.getD (i - 1) 0

/-- Embedding of hamming_window (lines 80-85): sample i of an n-sample
frame is scaled by 0.54 - 0.46 * cos(2 * pi * i / (n - 1)). -/
noncomputable def hamming_window (frame : List ℝ) : List ℝ :=
  (List.range frame.length).map fun i =>
    frame.getD i 0 * (0.54 - 0.46 * Real.cos (2 * Real.pi * i / ((frame.length : ℝ) - 1)))

/-- Embedding of hz_to_mel (lines 88-90). -/
noncomputable def hz_to_mel (hz : ℝ) : ℝ := 2595 * Real.logb 10 (1 + hz / 700)

/-- Embedding of mel_to_hz (lines 92-94). -/
noncomputable def mel_to_hz (mel : ℝ) : ℝ := 700 * ((10 : ℝ) ^ (mel / 2595) - 1)

/-- The mel_points array of create_mel_filterbanks (lines 98-103):
num_filters + 2 points placed equally in mel space between 0 and
hz_to_mel(sample_rate / 2). -/
noncomputable def mel_points (nf sr : ℕ) (i : ℕ) : ℝ :=
  0 + (hz_to_mel ((sr : ℝ) / 2) - 0) * i / ((nf : ℝ) + 1)

/-- The hz_points array of create_mel_filterbanks (lines 104-107). -/
noncomputable def hz_points (nf sr : ℕ) (i : ℕ) : ℝ :=
  mel_to_hz (mel_points nf sr i)

/-- The bin array of create_mel_filterbanks (lines 108-111):
floor((fft_size + 1) * hz_points[i] / sample_rate) as an integer. -/
noncomputable def freqBin (nf fs sr : ℕ) (i : ℕ) : ℤ :=
  ⌊((fs : ℝ) + 1) * hz_points nf sr i / (sr : ℝ)⌋

/-- Embedding of the filter matrix built by create_mel_filterbanks
(lines 112-121), as a function of the 1-based filter index m (row
filters[m-1] of the C++) and the bin column k.  Row m - 1 is written
only during iteration m of the outer loop; the first inner loop writes
the rising ramp on bin[m-1] <= k < bin[m] and the second the falling
ramp on bin[m] <= k < bin[m+1] (disjoint ranges), and entries outside
both ranges keep the initial value 0. -/
noncomputable def create_mel_filterbanks (nf fs sr : ℕ) (m : ℕ) (k : ℤ) : ℝ :=
  if freqBin nf fs sr (m - 1) ≤ k ∧ k < freqBin nf fs sr m then
    ((k : ℝ) - (freqBin nf fs sr (m - 1) : ℝ)) /
      ((freqBin nf fs sr m : ℝ) - (freqBin nf fs sr (m - 1) : ℝ))
  else if freqBin nf fs sr m ≤ k ∧ k < freqBin nf fs sr (m + 1) then
    ((freqBin nf fs sr (m + 1) : ℝ) - (k : ℝ)) /
      ((freqBin nf fs sr (m + 1) : ℝ) - (freqBin nf fs sr m : ℝ))
  else 0

/-- Embedding of apply_mel_filters (lines 125-136) for the 1-based
filter index m + 1: the energy is the sum over all power bins of
power[k] * filter weight, log-compressed with the 1e-10 floor. -/
noncomputable def apply_mel_filters (power : List ℝ) (nf fs sr : ℕ) (m : ℕ) : ℝ :=
  let e := ∑ k ∈ Finset.range power.length,
    power.getD k 0 * create_mel_filterbanks nf fs sr (m + 1) (k : ℤ)
  if e > 0 then Real.log e else Real.log 1e-10

/-- Embedding of dct (lines 139-151): 13 unnormalised cosine-basis
coefficients of the num_filters mel energies. -/
noncomputable def dct (mel_energies : ℕ → ℝ) (num_filters : ℕ) : List ℝ :=
  (List.range 13).map fun (k : ℕ) =>
    ∑ m ∈ Finset.range num_filters,
      mel_energies m * Real.cos (Real.pi * (k : ℝ) * ((m : ℝ) + 0.5) / (num_filters : ℝ))

/-- Embedding of extractMFCC (lines 154-181): pre-emphasis, Hamming
window, power spectrum, the 40-filter mel filterbank built for
fft_size = power.size() * 2 - 2 at the fixed 48000 Hz sample rate,
log-compressed filter application, and the 13-coefficient DCT. -/
noncomputable def extractMFCC (audioData : List ℝ) : List ℝ :=
  let frame := pre_emphasis audioData
  let windowed := hamming_window frame
  let power := power_spectrum windowed
  let fft_size := power.length * 2 - 2
  dct (fun m => apply_mel_filters power 40 fft_size 48000 m) 40

/-! Spec-side definitions.  The following definitions transcribe the
wording of the specification (sections 4.3, 4.4 and 8) rather than the
C++ code; the refinement theorems below compare them with the
source-derived definitions above. -/

/-- Cosine distance as worded in spec section 4.4:
cosineDistance(a,b) = 1 - cosineSimilarity(a,b). -/
noncomputable def cosineDistance (a b : List ℝ) : ℝ := 1 - cosineSimilarity a b

/-- The DTW cost matrix as worded in spec section 4.4: dp[0][0] = 0,
every other cell of row 0 and column 0 is +infinity, and
dp[i][j] = cosineDistance(seq1[i-1], seq2[j-1])
           + min(dp[i-1][j], dp[i][j-1], dp[i-1][j-1]). -/
noncomputable def dpSpec (s1 s2 : List (List ℝ)) : ℕ → ℕ → EReal
  | 0, 0 => 0
  | _ + 1, 0 => ⊤
  | 0, _ + 1 => ⊤
  | i + 1, j + 1 =>
      ((cosineDistance (s1.getD i []) (s2.getD j [])) : ℝ) +
        min (dpSpec s1 s2 i (j + 1)) (min (dpSpec s1 s2 (i + 1) j) (dpSpec s1 s2 i j))

/-- Euclidean norm of a vector, used by the wording of spec section 4.4
for cosine similarity. -/
noncomputable def euclideanNorm (v : List ℝ) : ℝ :=
  Real.sqrt (∑ i ∈ Finset.range v.length, v.getD i 0 * v.getD i 0)

/-- Dot product of two vectors over the index range of the first, as
accumulated by the cosineSimilarity loop. -/
noncomputable def dotProd (v1 v2 : List ℝ) : ℝ :=
  ∑ i ∈ Finset.range v1.length, v1.getD i 0 * v2.getD i 0

/-- The MFCC pipeline as worded in the spec (section 4.3, steps 1-5 in
strict order): pre-emphasis, Hamming windowing, the power spectrum,
the 40-filter log-compressed mel filterbank sized for the inferred
fft size 2 * (power spectrum length - 1), and the 13-coefficient
cosine-basis DCT. -/
noncomputable def mfccPipelineSpec (audio : List ℝ) : List ℝ :=
  dct
    (fun m =>
      apply_mel_filters (power_spectrum (hamming_window (pre_emphasis audio))) 40
        ((power_spectrum (hamming_window (pre_emphasis audio))).length * 2 - 2) 48000 m)
    40

/-! Helper lemmas about the cosine similarity and the DTW table. -/

/-- The accumulated dot product is symmetric once the two vectors have
the same length. -/
theorem sumMul_comm (v1 v2 : List ℝ) (h : v1.length = v2.length) :
    sumMul v1 v2 = sumMul v2 v1 := by
  unfold sumMul
  rw [h]
  exact Finset.sum_congr rfl fun i _ => mul_comm _ _

/-- Cosine similarity is symmetric in its two arguments. -/
theorem cosineSimilarity_comm (v1 v2 : List ℝ) :
    cosineSimilarity v1 v2 = cosineSimilarity v2 v1 := by
  by_cases h : v1.length = v2.length
  · by_cases hd : Real.sqrt (sumMul v1 v1) * Real.sqrt (sumMul v2 v2) = 0
    · unfold cosineSimilarity
      rw [if_neg (by simp [h]), if_pos hd, if_neg (by simp [h]),
        if_pos (by rwa [mul_comm] at hd)]
    · unfold cosineSimilarity
      rw [if_neg (by simp [h]), if_neg hd, if_neg (by simp [h]),
        if_neg (by rwa [mul_comm] at hd), sumMul_comm v1 v2 h,
        mul_comm (Real.sqrt (sumMul v1 v1)) (Real.sqrt (sumMul v2 v2))]
  · unfold cosineSimilarity
    rw [if_pos h, if_pos (Ne.symm h)]

/-- The source DTW table coincides with the table worded in the spec. -/
theorem dp_eq_dpSpec (s1 s2 : List (List ℝ)) : ∀ i j, dp s1 s2 i j = dpSpec s1 s2 i j := by
  have key : ∀ N i j, i + j ≤ N → dp s1 s2 i j = dpSpec s1 s2 i j := by
    intro N
    induction N with
    | zero =>
      intro i j h
      obtain ⟨rfl, rfl⟩ : i = 0 ∧ j = 0 := by omega
      simp [dp, dpSpec]
    | succ N ih =>
      intro i j h
      match i, j with
      | 0, 0 => simp [dp, dpSpec]
      | i + 1, 0 => simp [dp, dpSpec]
      | 0, j + 1 => simp [dp, dpSpec]
      | i + 1, j + 1 =>
        have h1 := ih i (j + 1) (by omega)
        have h2 := ih (i + 1) j (by omega)
        have h3 := ih i j (by omega)
        simp only [dp, dpSpec, cosineDistance]
        rw [h1, h2, h3]
  intro i j
  exact key (i + j) i j le_rfl

/-- The DTW table is symmetric: swapping the two sequences transposes
the table. -/
theorem dp_symm (s1 s2 : List (List ℝ)) : ∀ i j, dp s1 s2 i j = dp s2 s1 j i := by
  have key : ∀ N i j, i + j ≤ N → dp s1 s2 i j = dp s2 s1 j i := by
    intro N
    induction N with
    | zero =>
      intro i j h
      obtain ⟨rfl, rfl⟩ : i = 0 ∧ j = 0 := by omega
      simp [dp]
    | succ N ih =>
      intro i j h
      match i, j with
      | 0, 0 => simp [dp]
      | i + 1, 0 => simp [dp]
      | 0, j + 1 => simp [dp]
      | i + 1, j + 1 =>
        have h1 := ih i (j + 1) (by omega)
        have h2 := ih (i + 1) j (by omega)
        have h3 := ih i j (by omega)
        simp only [dp]
        rw [h1, h2, h3, cosineSimilarity_comm, min_left_comm]
  intro i j
  exact key (i + j) i j le_rfl

/-- A sum of products of an entry with itself is non-negative. -/
theorem sumMul_self_nonneg (v : List ℝ) : 0 ≤ sumMul v v :=
  Finset.sum_nonneg fun _ _ => mul_self_nonneg _

/-- Cosine similarity never exceeds 1 (Cauchy-Schwarz, plus the two
degenerate branches that return 0). -/
theorem cosineSimilarity_le_one (v1 v2 : List ℝ) : cosineSimilarity v1 v2 ≤ 1 := by
  unfold cosineSimilarity
  by_cases h : v1.length = v2.length
  · rw [if_neg (by simp [h])]
    by_cases hd : Real.sqrt (sumMul v1 v1) * Real.sqrt (sumMul v2 v2) = 0
    · rw [if_pos hd]; exact zero_le_one
    · rw [if_neg hd]
      have h1 : 0 ≤ sumMul v1 v1 := sumMul_self_nonneg v1
      have h2 : 0 ≤ sumMul v2 v2 := sumMul_self_nonneg v2
      have hdnn : 0 ≤ Real.sqrt (sumMul v1 v1) * Real.sqrt (sumMul v2 v2) :=
        mul_nonneg (Real.sqrt_nonneg _) (Real.sqrt_nonneg _)
      have hdpos : 0 < Real.sqrt (sumMul v1 v1) * Real.sqrt (sumMul v2 v2) :=
        lt_of_le_of_ne hdnn (Ne.symm hd)
      rw [div_le_one hdpos]
      have hcs : (sumMul v1 v2) ^ 2 ≤ sumMul v1 v1 * sumMul v2 v2 := by
        have := Finset.sum_mul_sq_le_sq_mul_sq (Finset.range v1.length)
          (fun i => v1.getD i 0) (fun i => v2.getD i 0)
        unfold sumMul
        calc (∑ i ∈ Finset.range v1.length, v1.getD i 0 * v2.getD i 0) ^ 2
            ≤ (∑ i ∈ Finset.range v1.length, v1.getD i 0 ^ 2) *
                ∑ i ∈ Finset.range v1.length, v2.getD i 0 ^ 2 := this
          _ = (∑ i ∈ Finset.range v1.length, v1.getD i 0 * v1.getD i 0) *
                ∑ i ∈ Finset.range v1.length, v2.getD i 0 * v2.getD i 0 := by
              simp only [pow_two]
          _ = (∑ i ∈ Finset.range v1.length, v1.getD i 0 * v1.getD i 0) *
                ∑ i ∈ Finset.range v2.length, v2.getD i 0 * v2.getD i 0 := by
              nth_rewrite 2 [h]
              rfl
      calc sumMul v1 v2 ≤ |sumMul v1 v2| := le_abs_self _
        _ = Real.sqrt ((sumMul v1 v2) ^ 2) := (Real.sqrt_sq_eq_abs _).symm
        _ ≤ Real.sqrt (sumMul v1 v1 * sumMul v2 v2) := Real.sqrt_le_sqrt hcs
        _ = Real.sqrt (sumMul v1 v1) * Real.sqrt (sumMul v2 v2) := Real.sqrt_mul h1 _
  · rw [if_pos h]; exact zero_le_one

/-- Cosine similarity of a vector with itself is 1 once the vector has
non-zero energy. -/
theorem cosineSimilarity_self (v : List ℝ) (h : sumMul v v ≠ 0) :
    cosineSimilarity v v = 1 := by
  unfold cosineSimilarity
  have hs : Real.sqrt (sumMul v v) * Real.sqrt (sumMul v v) = sumMul v v :=
    Real.mul_self_sqrt (sumMul_self_nonneg v)
  rw [if_neg (by simp), if_neg (by rw [hs]; exact h), hs, div_self h]

/-- Every cell of the DTW table is non-negative. -/
theorem dp_nonneg (s1 s2 : List (List ℝ)) : ∀ i j, 0 ≤ dp s1 s2 i j := by
  have key : ∀ N i j, i + j ≤ N → 0 ≤ dp s1 s2 i j := by
    intro N
    induction N with
    | zero =>
      intro i j h
      obtain ⟨rfl, rfl⟩ : i = 0 ∧ j = 0 := by omega
      simp [dp]
    | succ N ih =>
      intro i j h
      match i, j with
      | 0, 0 => simp [dp]
      | i + 1, 0 => simp [dp]
      | 0, j + 1 => simp [dp]
      | i + 1, j + 1 =>
        have h1 := ih i (j + 1) (by omega)
        have h2 := ih (i + 1) j (by omega)
        have h3 := ih i j (by omega)
        simp only [dp]
        refine add_nonneg ?_ (le_min h1 (le_min h2 h3))
        exact EReal.coe_nonneg.mpr (sub_nonneg.mpr (cosineSimilarity_le_one _ _))
  intro i j
  exact key (i + j) i j le_rfl

/-! Claim theorems. -/

/-- C1: for non-empty feature sequences, computeDTW returns
1 - dp[len1][len2] / (len1 + len2) where dp is the spec recurrence:
dp[0][0] = 0, the other cells of row 0 and column 0 are +infinity, and
dp[i][j] = cosineDistance(seq1[i-1], seq2[j-1]) +
min(dp[i-1][j], dp[i][j-1], dp[i-1][j-1]). -/
theorem computeDTW_matches_spec_recurrence (s1 s2 : List (List ℝ))
    (_h1 : s1 ≠ []) (_h2 : s2 ≠ []) :
    computeDTW s1 s2 =
      1 - dpSpec s1 s2 s1.length s2.length /
        (((s1.length + s2.length : ℕ) : ℝ) : EReal) := by
  unfold computeDTW
  rw [dp_eq_dpSpec]

/-- Witness for C1 at the concrete input [[1]], [[1]]. -/
theorem computeDTW_matches_spec_recurrence_witness :
    computeDTW [[(1 : ℝ)]] [[(1 : ℝ)]] =
      1 - dpSpec [[(1 : ℝ)]] [[(1 : ℝ)]] 1 1 / (((2 : ℕ) : ℝ) : EReal) :=
  computeDTW_matches_spec_recurrence [[(1 : ℝ)]] [[(1 : ℝ)]] (by simp) (by simp)

/-- C5: computeDTW is symmetric in its two sequence arguments. -/
theorem computeDTW_comm (s1 s2 : List (List ℝ)) :
    computeDTW s1 s2 = computeDTW s2 s1 := by
  unfold computeDTW
  rw [dp_symm, Nat.add_comm s1.length s2.length]

/-- C7: cosineSimilarity returns exactly 0 on a dimensionality
mismatch, exactly 0 when either vector has zero Euclidean norm, and the
dot product divided by the product of the Euclidean norms otherwise. -/
theorem cosineSimilarity_cases (v1 v2 : List ℝ) :
    (v1.length ≠ v2.length → cosineSimilarity v1 v2 = 0) ∧
    (euclideanNorm v1 = 0 ∨ euclideanNorm v2 = 0 → cosineSimilarity v1 v2 = 0) ∧
    (v1.length = v2.length → euclideanNorm v1 ≠ 0 → euclideanNorm v2 ≠ 0 →
      cosineSimilarity v1 v2 = dotProd v1 v2 / (euclideanNorm v1 * euclideanNorm v2)) := by
  have e1 : euclideanNorm v1 = Real.sqrt (sumMul v1 v1) := by
    unfold euclideanNorm sumMul; rfl
  have e2 : euclideanNorm v2 = Real.sqrt (sumMul v2 v2) := by
    unfold euclideanNorm sumMul; rfl
  refine ⟨fun h => ?_, fun h => ?_, fun hlen hn1 hn2 => ?_⟩
  · unfold cosineSimilarity
    rw [if_pos h]
  · unfold cosineSimilarity
    by_cases hlen : v1.length = v2.length
    · rw [if_neg (by simp [hlen]), if_pos ?_]
      rcases h with h | h
      · rw [e1] at h; rw [h, zero_mul]
      · rw [e2] at h; rw [h, mul_zero]
    · rw [if_pos hlen]
  · unfold cosineSimilarity
    rw [if_neg (by simp [hlen]), if_neg ?_]
    · rw [e1, e2]; rfl
    · rw [← e1, ← e2]
      exact mul_ne_zero hn1 hn2

/-- Witness for C7: all three cases applied at concrete vectors. -/
theorem cosineSimilarity_cases_witness :
    cosineSimilarity [(1 : ℝ)] [1, 2] = 0 ∧
    cosineSimilarity [(0 : ℝ)] [0] = 0 ∧
    cosineSimilarity [(1 : ℝ)] [2] =
      dotProd [(1 : ℝ)] [2] / (euclideanNorm [(1 : ℝ)] * euclideanNorm [(2 : ℝ)]) :=
  ⟨(cosineSimilarity_cases [(1 : ℝ)] [1, 2]).1 (by simp),
   (cosineSimilarity_cases [(0 : ℝ)] [0]).2.1
     (Or.inl (by simp [euclideanNorm])),
   (cosineSimilarity_cases [(1 : ℝ)] [2]).2.2 (by simp)
     (by simp [euclideanNorm]) (by simp [euclideanNorm])⟩

/-- C10: when exactly one of the two sequences is empty, the boundary
initialisation leaves dp[len1][len2] = +infinity, the division by the
non-zero total length is defined, and the returned score is the
degenerate value -infinity. -/
theorem computeDTW_single_empty (s1 s2 : List (List ℝ)) :
    (s1 = [] → s2 ≠ [] → computeDTW s1 s2 = ⊥) ∧
    (s1 ≠ [] → s2 = [] → computeDTW s1 s2 = ⊥) := by
  have main : ∀ t : List (List ℝ), t ≠ [] → computeDTW [] t = ⊥ := by
    intro t ht
    obtain ⟨k, hk⟩ : ∃ k, t.length = k + 1 := by
      rcases t with _ | ⟨a, t⟩
      · exact absurd rfl ht
      · exact ⟨t.length, rfl⟩
    unfold computeDTW
    simp only [List.length_nil, Nat.zero_add]
    have hdp : dp [] t 0 t.length = ⊤ := by
      rw [hk]; simp [dp]
    rw [hdp, hk]
    rw [EReal.top_div_of_pos_ne_top (by exact_mod_cast Nat.succ_pos k) (EReal.coe_ne_top _)]
    exact EReal.sub_top 1
  constructor
  · intro h1 h2
    rw [h1]
    exact main s2 h2
  · intro h1 h2
    rw [h2, computeDTW_comm]
    exact main s1 h1

/-- Witness for C10 at the concrete input [], [[1]]. -/
theorem computeDTW_single_empty_witness :
    computeDTW ([] : List (List ℝ)) [[(1 : ℝ)]] = ⊥ :=
  (computeDTW_single_empty ([] : List (List ℝ)) [[(1 : ℝ)]]).1 rfl (by simp)

/-- Normalisation step rewritten through the EReal coercion: for a real
table value the returned score is the coercion of the real score. -/
theorem score_coe (x : ℝ) (n : ℕ) :
    (1 : EReal) - ((x : ℝ) : EReal) / (((n : ℕ) : ℝ) : EReal) =
      ((1 - x / (n : ℝ) : ℝ) : EReal) := by
  rw [← EReal.coe_div, show (1 : EReal) = ((1 : ℝ) : EReal) from EReal.coe_one.symm,
    ← EReal.coe_sub]

/-- C4, counterexample: on the single-element sequence holding the zero
vector, the cosine similarity degenerates to 0, dp[1][1] = 1, and the
self-comparison score is 1/2, not 1. -/
theorem computeDTW_self_zero_vector :
    computeDTW [[(0 : ℝ)]] [[(0 : ℝ)]] = ((1 / 2 : ℝ) : EReal) ∧
      ((1 / 2 : ℝ) : EReal) ≠ 1 := by
  constructor
  · have hc : cosineSimilarity [(0 : ℝ)] [(0 : ℝ)] = 0 := by
      simp [cosineSimilarity, sumMul, Finset.sum_range_succ]
    have hdp : dp [[(0 : ℝ)]] [[(0 : ℝ)]] 1 1 = ((1 : ℝ) : EReal) := by
      simp [dp, hc]
    unfold computeDTW
    simp only [List.length_singleton]
    rw [hdp, score_coe]
    norm_num
  · rw [show (1 : EReal) = ((1 : ℝ) : EReal) from EReal.coe_one.symm]
    norm_num

/-- C4, amended: comparing a non-empty sequence with itself yields the
exact score 1 provided every vector of the sequence has non-zero
energy (so that no diagonal cosine similarity degenerates to 0). -/
theorem computeDTW_self (s : List (List ℝ)) (_hne : s ≠ [])
    (hv : ∀ v ∈ s, sumMul v v ≠ 0) : computeDTW s s = 1 := by
  have hdiag : ∀ n, n ≤ s.length → dp s s n n = 0 := by
    intro n
    induction n with
    | zero => intro _; simp [dp]
    | succ n ih =>
      intro hn
      have hmem : s.getD n [] ∈ s := by
        rw [List.getD_eq_getElem s [] (by omega)]
        exact List.getElem_mem _
      have hcs : cosineSimilarity (s.getD n []) (s.getD n []) = 1 :=
        cosineSimilarity_self _ (hv _ hmem)
      simp only [dp, hcs]
      rw [ih (by omega), min_eq_right (dp_nonneg s s (n + 1) n),
        min_eq_right (dp_nonneg s s n (n + 1))]
      norm_num
  unfold computeDTW
  rw [hdiag s.length le_rfl]
  simp

/-- Witness for C4 at the concrete input [[1]]. -/
theorem computeDTW_self_witness : computeDTW [[(1 : ℝ)]] [[(1 : ℝ)]] = 1 :=
  computeDTW_self [[(1 : ℝ)]] (by simp)
    (by
      intro v hv
      rw [List.mem_singleton] at hv
      subst hv
      simp [sumMul, Finset.sum_range_succ])

/-- C6: the DTW table entry at the corner is non-negative (every
per-step cost 1 - cosineSimilarity is non-negative since the cosine
similarity never exceeds 1), hence the returned score never exceeds 1;
the score can, however, go below 0. -/
theorem computeDTW_le_one (s1 s2 : List (List ℝ)) (_h1 : s1 ≠ []) (_h2 : s2 ≠ []) :
    (0 ≤ dp s1 s2 s1.length s2.length ∧ computeDTW s1 s2 ≤ 1) ∧
      ∃ t1 t2 : List (List ℝ), t1 ≠ [] ∧ t2 ≠ [] ∧ computeDTW t1 t2 < 0 := by
  refine ⟨⟨dp_nonneg s1 s2 _ _, ?_⟩,
    [[(1 : ℝ)]], [[(-1 : ℝ)], [(-1 : ℝ)]], by simp, by simp, ?_⟩
  · unfold computeDTW
    have hd : 0 ≤ dp s1 s2 s1.length s2.length /
        (((s1.length + s2.length : ℕ) : ℝ) : EReal) :=
      EReal.div_nonneg (dp_nonneg s1 s2 _ _)
        (EReal.coe_nonneg.mpr (by positivity))
    simpa using EReal.sub_le_sub (le_refl (1 : EReal)) hd
  · have hc : cosineSimilarity [(1 : ℝ)] [(-1 : ℝ)] = -1 := by
      simp [cosineSimilarity, sumMul, Finset.sum_range_succ]
    have hdp : dp [[(1 : ℝ)]] [[(-1 : ℝ)], [(-1 : ℝ)]] 1 2 = ((4 : ℝ) : EReal) := by
      simp [dp, hc]
      rw [show ((4 : ℝ) : EReal) = ((1 + 1 + (1 + 1) : ℝ) : EReal) from by norm_num]
      push_cast
      rfl
    unfold computeDTW
    simp only [List.length_singleton, List.length_cons, List.length_nil]
    rw [hdp, score_coe]
    rw [show (0 : EReal) = ((0 : ℝ) : EReal) from EReal.coe_zero.symm]
    rw [EReal.coe_lt_coe_iff]
    norm_num

/-- Witness for C6 at the concrete non-empty inputs [[1]], [[1]]. -/
theorem computeDTW_le_one_witness :
    (0 ≤ dp [[(1 : ℝ)]] [[(1 : ℝ)]] 1 1 ∧ computeDTW [[(1 : ℝ)]] [[(1 : ℝ)]] ≤ 1) ∧
      ∃ t1 t2 : List (List ℝ), t1 ≠ [] ∧ t2 ≠ [] ∧ computeDTW t1 t2 < 0 :=
  computeDTW_le_one [[(1 : ℝ)]] [[(1 : ℝ)]] (by simp) (by simp)

/-- C2: for a frame of length greater than 1, extractMFCC is exactly
the strict five-stage pipeline worded by the spec, and its output has
13 coefficients. -/
theorem extractMFCC_pipeline (audio : List ℝ) (_h : 1 < audio.length) :
    extractMFCC audio = mfccPipelineSpec audio ∧ (extractMFCC audio).length = 13 := by
  constructor
  · rfl
  · simp only [extractMFCC, dct, List.length_map, List.length_range]

/-- Witness for C2 at the concrete two-sample frame [1, 0]. -/
theorem extractMFCC_pipeline_witness :
    extractMFCC [(1 : ℝ), 0] = mfccPipelineSpec [(1 : ℝ), 0] ∧
      (extractMFCC [(1 : ℝ), 0]).length = 13 :=
  extractMFCC_pipeline [(1 : ℝ), 0] (by simp)

/-! Mel filterbank lemmas. -/

/-- The mel points are monotone in the point index. -/
theorem mel_points_mono (nf sr : ℕ) {i j : ℕ} (h : i ≤ j) :
    mel_points nf sr i ≤ mel_points nf sr j := by
  unfold mel_points
  have hmel : 0 ≤ hz_to_mel ((sr : ℝ) / 2) := by
    unfold hz_to_mel
    have : (0 : ℝ) ≤ Real.logb 10 (1 + (sr : ℝ) / 2 / 700) := by
      refine Real.logb_nonneg (by norm_num) ?_
      have : (0 : ℝ) ≤ (sr : ℝ) / 2 / 700 := by positivity
      linarith
    positivity
  have hij : (i : ℝ) ≤ (j : ℝ) := by exact_mod_cast h
  gcongr
  linarith

/-- Conversion from mel back to hz is monotone. -/
theorem mel_to_hz_mono {a b : ℝ} (h : a ≤ b) : mel_to_hz a ≤ mel_to_hz b := by
  unfold mel_to_hz
  have : (10 : ℝ) ^ (a / 2595) ≤ (10 : ℝ) ^ (b / 2595) :=
    Real.rpow_le_rpow_of_exponent_le (by norm_num) (by linarith)
  linarith

/-- The bin indices computed by create_mel_filterbanks are monotone. -/
theorem freqBin_mono (nf fs sr : ℕ) (hsr : 0 < sr) {i j : ℕ} (h : i ≤ j) :
    freqBin nf fs sr i ≤ freqBin nf fs sr j := by
  unfold freqBin
  apply Int.floor_le_floor
  have hhz : hz_points nf sr i ≤ hz_points nf sr j :=
    mel_to_hz_mono (mel_points_mono nf sr h)
  have hsr' : (0 : ℝ) < (sr : ℝ) := by exact_mod_cast hsr
  have hnum : ((fs : ℝ) + 1) * hz_points nf sr i ≤ ((fs : ℝ) + 1) * hz_points nf sr j :=
    mul_le_mul_of_nonneg_left hhz (by positivity)
  exact div_le_div_of_nonneg_right hnum hsr'.le

/-- C8: for a filterbank built from a positive filter count, a positive
power-of-two fft size and a positive sample rate, every weight lies in
[0, 1]; a bin with non-zero weight in filter m1 has zero weight in any
filter at distance 2 or more; and on the overlap range between adjacent
filters the falling ramp of filter m and the rising ramp of filter m+1
sum to exactly 1. -/
theorem create_mel_filterbanks_partition (nf fs sr : ℕ) (e : ℕ)
    (_hnf : 0 < nf) (_hfs : fs = 2 ^ e) (hsr : 0 < sr) :
    (∀ m : ℕ, ∀ k : ℤ, 1 ≤ m → m ≤ nf →
      0 ≤ create_mel_filterbanks nf fs sr m k ∧ create_mel_filterbanks nf fs sr m k ≤ 1) ∧
    (∀ k : ℤ, ∀ m1 m2 : ℕ, m1 + 1 < m2 →
      create_mel_filterbanks nf fs sr m1 k ≠ 0 → create_mel_filterbanks nf fs sr m2 k = 0) ∧
    (∀ m : ℕ, ∀ k : ℤ, 1 ≤ m → m < nf →
      freqBin nf fs sr m ≤ k → k < freqBin nf fs sr (m + 1) →
      create_mel_filterbanks nf fs sr m k + create_mel_filterbanks nf fs sr (m + 1) k = 1) := by
  refine ⟨?_, ?_, ?_⟩
  · intro m k _ _
    unfold create_mel_filterbanks
    by_cases hup : freqBin nf fs sr (m - 1) ≤ k ∧ k < freqBin nf fs sr m
    · rw [if_pos hup]
      have hspan : (0 : ℝ) < (freqBin nf fs sr m : ℝ) - (freqBin nf fs sr (m - 1) : ℝ) := by
        have h1 : freqBin nf fs sr (m - 1) < freqBin nf fs sr m := lt_of_le_of_lt hup.1 hup.2
        have h2 : ((freqBin nf fs sr (m - 1) : ℤ) : ℝ) < ((freqBin nf fs sr m : ℤ) : ℝ) := by
          exact_mod_cast h1
        linarith
      constructor
      · apply div_nonneg ?_ hspan.le
        have h2 : ((freqBin nf fs sr (m - 1) : ℤ) : ℝ) ≤ (k : ℝ) := by exact_mod_cast hup.1
        linarith
      · rw [div_le_one hspan]
        have h2 : (k : ℝ) ≤ ((freqBin nf fs sr m : ℤ) : ℝ) := by exact_mod_cast hup.2.le
        linarith
    · rw [if_neg hup]
      by_cases hdown : freqBin nf fs sr m ≤ k ∧ k < freqBin nf fs sr (m + 1)
      · rw [if_pos hdown]
        have hspan : (0 : ℝ) <
            (freqBin nf fs sr (m + 1) : ℝ) - (freqBin nf fs sr m : ℝ) := by
          have h1 : freqBin nf fs sr m < freqBin nf fs sr (m + 1) :=
            lt_of_le_of_lt hdown.1 hdown.2
          have h2 : ((freqBin nf fs sr m : ℤ) : ℝ) < ((freqBin nf fs sr (m + 1) : ℤ) : ℝ) := by
            exact_mod_cast h1
          linarith
        constructor
        · apply div_nonneg ?_ hspan.le
          have h2 : (k : ℝ) ≤ ((freqBin nf fs sr (m + 1) : ℤ) : ℝ) := by
            exact_mod_cast hdown.2.le
          linarith
        · rw [div_le_one hspan]
          have h2 : ((freqBin nf fs sr m : ℤ) : ℝ) ≤ (k : ℝ) := by exact_mod_cast hdown.1
          linarith
      · rw [if_neg hdown]
        norm_num
  · intro k m1 m2 hlt hne
    have hk : k < freqBin nf fs sr (m1 + 1) := by
      by_contra hk
      push_neg at hk
      apply hne
      unfold create_mel_filterbanks
      rw [if_neg, if_neg]
      · rintro ⟨h1, h2⟩
        exact absurd h2 (not_lt.mpr hk)
      · rintro ⟨h1, h2⟩
        have : freqBin nf fs sr m1 ≤ freqBin nf fs sr (m1 + 1) :=
          freqBin_mono nf fs sr hsr (Nat.le_succ m1)
        omega
    unfold create_mel_filterbanks
    rw [if_neg, if_neg]
    · rintro ⟨h1, h2⟩
      have : freqBin nf fs sr (m1 + 1) ≤ freqBin nf fs sr m2 :=
        freqBin_mono nf fs sr hsr (by omega)
      omega
    · rintro ⟨h1, h2⟩
      have : freqBin nf fs sr (m1 + 1) ≤ freqBin nf fs sr (m2 - 1) :=
        freqBin_mono nf fs sr hsr (by omega)
      omega
  · intro m k _ _ hk1 hk2
    have hm1 : m + 1 - 1 = m := by omega
    have hspanz : freqBin nf fs sr m < freqBin nf fs sr (m + 1) := lt_of_le_of_lt hk1 hk2
    have hspan : (0 : ℝ) < (freqBin nf fs sr (m + 1) : ℝ) - (freqBin nf fs sr m : ℝ) := by
      have h2 : ((freqBin nf fs sr m : ℤ) : ℝ) < ((freqBin nf fs sr (m + 1) : ℤ) : ℝ) := by
        exact_mod_cast hspanz
      linarith
    unfold create_mel_filterbanks
    rw [hm1]
    rw [if_neg (by rintro ⟨h1, h2⟩; omega), if_pos ⟨hk1, hk2⟩, if_pos ⟨hk1, hk2⟩]
    rw [div_add_div_same]
    rw [show (freqBin nf fs sr (m + 1) : ℝ) - (k : ℝ) + ((k : ℝ) - (freqBin nf fs sr m : ℝ)) =
      (freqBin nf fs sr (m + 1) : ℝ) - (freqBin nf fs sr m : ℝ) from by ring]
    exact div_self hspan.ne'

/-- Witness for C8 with one filter, fft size 2 = 2^1, sample rate 1. -/
theorem create_mel_filterbanks_partition_witness :
    (∀ m : ℕ, ∀ k : ℤ, 1 ≤ m → m ≤ 1 →
      0 ≤ create_mel_filterbanks 1 2 1 m k ∧ create_mel_filterbanks 1 2 1 m k ≤ 1) ∧
    (∀ k : ℤ, ∀ m1 m2 : ℕ, m1 + 1 < m2 →
      create_mel_filterbanks 1 2 1 m1 k ≠ 0 → create_mel_filterbanks 1 2 1 m2 k = 0) ∧
    (∀ m : ℕ, ∀ k : ℤ, 1 ≤ m → m < 1 →
      freqBin 1 2 1 m ≤ k → k < freqBin 1 2 1 (m + 1) →
      create_mel_filterbanks 1 2 1 m k + create_mel_filterbanks 1 2 1 (m + 1) k = 1) :=
  create_mel_filterbanks_partition 1 2 1 1 (by norm_num) (by norm_num) (by norm_num)

/-- C9: when two adjacent bin indices coincide, the corresponding ramp
loop of create_mel_filterbanks has an empty iteration range, so the
division by the zero span is never executed: the filter row is computed
entirely by the other ramp (or stays 0). -/
theorem create_mel_filterbanks_empty_ramp (nf fs sr : ℕ) (m : ℕ) :
    (freqBin nf fs sr m = freqBin nf fs sr (m - 1) →
      Finset.Ico (freqBin nf fs sr (m - 1)) (freqBin nf fs sr m) = ∅ ∧
      ∀ k : ℤ, create_mel_filterbanks nf fs sr m k =
        if freqBin nf fs sr m ≤ k ∧ k < freqBin nf fs sr (m + 1) then
          ((freqBin nf fs sr (m + 1) : ℝ) - (k : ℝ)) /
            ((freqBin nf fs sr (m + 1) : ℝ) - (freqBin nf fs sr m : ℝ))
        else 0) ∧
    (freqBin nf fs sr (m + 1) = freqBin nf fs sr m →
      Finset.Ico (freqBin nf fs sr m) (freqBin nf fs sr (m + 1)) = ∅ ∧
      ∀ k : ℤ, create_mel_filterbanks nf fs sr m k =
        if freqBin nf fs sr (m - 1) ≤ k ∧ k < freqBin nf fs sr m then
          ((k : ℝ) - (freqBin nf fs sr (m - 1) : ℝ)) /
            ((freqBin nf fs sr m : ℝ) - (freqBin nf fs sr (m - 1) : ℝ))
        else 0) := by
  constructor
  · intro h
    constructor
    · rw [h]
      exact Finset.Ico_self _
    · intro k
      unfold create_mel_filterbanks
      rw [if_neg (by rw [h]; omega)]
  · intro h
    constructor
    · rw [h]
      exact Finset.Ico_self _
    · intro k
      by_cases hup : freqBin nf fs sr (m - 1) ≤ k ∧ k < freqBin nf fs sr m
      · unfold create_mel_filterbanks
        rw [if_pos hup, if_pos hup]
      · unfold create_mel_filterbanks
        rw [if_neg hup, if_neg hup, if_neg (by rw [h]; omega)]

/-- Witness for C9: with one filter, fft size 1 and sample rate 1400,
bin[1] = floor(sqrt 2 - 1) = 0 = bin[0], and the theorem applies. -/
theorem create_mel_filterbanks_empty_ramp_witness :
    Finset.Ico (freqBin 1 1 1400 0) (freqBin 1 1 1400 1) = ∅ ∧
    ∀ k : ℤ, create_mel_filterbanks 1 1 1400 1 k =
      if freqBin 1 1 1400 1 ≤ k ∧ k < freqBin 1 1 1400 2 then
        ((freqBin 1 1 1400 2 : ℝ) - (k : ℝ)) /
          ((freqBin 1 1 1400 2 : ℝ) - (freqBin 1 1 1400 1 : ℝ))
      else 0 := by
  have h0 : freqBin 1 1 1400 0 = 0 := by
    unfold freqBin hz_points mel_points mel_to_hz
    norm_num
  have h1 : freqBin 1 1 1400 1 = 0 := by
    have hlogb : (10 : ℝ) ^ (Real.logb 10 2 * (1 / 2)) = Real.sqrt 2 := by
      rw [Real.rpow_mul (by norm_num : (0 : ℝ) ≤ 10)]
      rw [Real.rpow_logb (by norm_num) (by norm_num) (by norm_num)]
      rw [Real.sqrt_eq_rpow]
    have hs2 : (1 : ℝ) ≤ Real.sqrt 2 ∧ Real.sqrt 2 < 2 := by
      have hsq := Real.sq_sqrt (show (0 : ℝ) ≤ 2 by norm_num)
      have hnn := Real.sqrt_nonneg (2 : ℝ)
      constructor <;> nlinarith
    unfold freqBin hz_points mel_points mel_to_hz hz_to_mel
    push_cast
    rw [show (0 + (2595 * Real.logb 10 (1 + (1400 : ℝ) / 2 / 700) - 0) * 1 / (1 + 1)) / 2595
        = Real.logb 10 2 * (1 / 2) from by norm_num; ring]
    rw [hlogb]
    rw [show ((1 : ℝ) + 1) * (700 * (Real.sqrt 2 - 1)) / 1400 = Real.sqrt 2 - 1 from by ring]
    rw [Int.floor_eq_zero_iff]
    rw [Set.mem_Ico]
    constructor
    · linarith [hs2.1]
    · linarith [hs2.2]
  exact (create_mel_filterbanks_empty_ramp 1 1 1400 1).1 (h1.trans h0.symm)

/-! FFT correctness.  The iterative radix-2 algorithm embedded above is
shown to compute the discrete Fourier transform with root
exp(2 pi I / n) (sign flipped for the inverse pass), from which the
round-trip property of claim C3 follows by the orthogonality of the
roots of unity. -/

/-- Bit reversal produces a number below 2 ^ l. -/
theorem revBits_lt (l : ℕ) : ∀ i, revBits l i < 2 ^ l := by
  induction l with
  | zero => intro i; simp [revBits]
  | succ l ih =>
    intro i
    have h1 : i % 2 ≤ 1 := by omega
    have h2 : revBits l (i / 2) < 2 ^ l := ih (i / 2)
    have h3 : 2 ^ l * (i % 2) ≤ 2 ^ l * 1 := Nat.mul_le_mul_left _ h1
    calc revBits (l + 1) i = 2 ^ l * (i % 2) + revBits l (i / 2) := rfl
      _ < 2 ^ l * 1 + 2 ^ l := by omega
      _ = 2 ^ (l + 1) := by ring

/-- Bit reversal of an even number drops the trailing zero bit. -/
theorem revBits_two_mul (l q : ℕ) : revBits (l + 1) (2 * q) = revBits l q := by
  show 2 ^ l * (2 * q % 2) + revBits l (2 * q / 2) = revBits l q
  rw [show 2 * q % 2 = 0 from by omega, show 2 * q / 2 = q from by omega]
  ring

/-- Bit reversal of an odd number sets the leading output bit. -/
theorem revBits_two_mul_add_one (l q : ℕ) :
    revBits (l + 1) (2 * q + 1) = 2 ^ l + revBits l q := by
  show 2 ^ l * ((2 * q + 1) % 2) + revBits l ((2 * q + 1) / 2) = 2 ^ l + revBits l q
  rw [show (2 * q + 1) % 2 = 1 from by omega, show (2 * q + 1) / 2 = q from by omega]
  ring

/-- A sum over an even range splits into even and odd index sums. -/
theorem sum_range_even_odd (n : ℕ) (f : ℕ → ℂ) :
    ∑ i ∈ Finset.range (2 * n), f i =
      (∑ i ∈ Finset.range n, f (2 * i)) + ∑ i ∈ Finset.range n, f (2 * i + 1) := by
  induction n with
  | zero => simp
  | succ n ih =>
    rw [show 2 * (n + 1) = 2 * n + 1 + 1 from by ring, Finset.sum_range_succ,
      Finset.sum_range_succ, ih, Finset.sum_range_succ, Finset.sum_range_succ]
    ring

/-- Shorthand for the unit complex number of a given real angle. -/
noncomputable def cexpI (r : ℝ) : ℂ := Complex.exp ((r : ℂ) * Complex.I)

/-- The twiddle factor is the unit complex number of angle
2 pi / len (negated when inverting). -/
theorem wroot_eq_cexpI (invert : Bool) (len : ℕ) :
    wroot invert len = cexpI (2 * Real.pi / len * (if invert then -1 else 1)) := by
  unfold wroot cexpI
  rw [Complex.exp_mul_I, ← Complex.ofReal_cos, ← Complex.ofReal_sin]

/-- Multiplication rule for cexpI. -/
theorem cexpI_add (r s : ℝ) : cexpI (r + s) = cexpI r * cexpI s := by
  unfold cexpI
  rw [← Complex.exp_add]
  push_cast
  ring_nf

/-- Power rule for cexpI. -/
theorem cexpI_nat_pow (r : ℝ) (k : ℕ) : cexpI r ^ k = cexpI (k * r) := by
  unfold cexpI
  rw [← Complex.exp_nat_mul]
  push_cast
  ring_nf

/-- The angle 0 gives 1. -/
theorem cexpI_zero : cexpI 0 = 1 := by
  unfold cexpI
  simp

/-- The angle 2 pi gives 1. -/
theorem cexpI_two_pi : cexpI (2 * Real.pi) = 1 := by
  unfold cexpI
  push_cast
  exact_mod_cast Complex.exp_two_pi_mul_I

/-- The angle -2 pi gives 1. -/
theorem cexpI_neg_two_pi : cexpI (-(2 * Real.pi)) = 1 := by
  unfold cexpI
  rw [show ((-(2 * Real.pi) : ℝ) : ℂ) * Complex.I = -((2 * Real.pi : ℝ) * Complex.I) from by
    push_cast; ring]
  rw [Complex.exp_neg]
  have : Complex.exp (((2 * Real.pi : ℝ) : ℂ) * Complex.I) = 1 := by
    push_cast
    exact_mod_cast Complex.exp_two_pi_mul_I
  rw [this, inv_one]

/-- The angle pi gives -1. -/
theorem cexpI_pi : cexpI Real.pi = -1 := by
  unfold cexpI
  exact Complex.exp_pi_mul_I

/-- The angle -pi gives -1. -/
theorem cexpI_neg_pi : cexpI (-Real.pi) = -1 := by
  unfold cexpI
  rw [show ((-Real.pi : ℝ) : ℂ) * Complex.I = -((Real.pi : ℝ) * Complex.I) from by
    push_cast; ring]
  rw [Complex.exp_neg, Complex.exp_pi_mul_I]
  norm_num

/-- Forward twiddle factor as a unit complex number. -/
theorem wroot_false_eq (len : ℕ) : wroot false len = cexpI (2 * Real.pi / len) := by
  rw [wroot_eq_cexpI]
  norm_num

/-- Inverse twiddle factor as a unit complex number. -/
theorem wroot_true_eq (len : ℕ) : wroot true len = cexpI (-(2 * Real.pi / len)) := by
  rw [wroot_eq_cexpI]
  congr 1
  norm_num

/-- The squared twiddle factor of a doubled block is the twiddle factor
of the block. -/
theorem wroot_sq (invert : Bool) (L : ℕ) (hL : L ≠ 0) :
    wroot invert (2 * L) ^ 2 = wroot invert L := by
  have hL' : (L : ℝ) ≠ 0 := Nat.cast_ne_zero.mpr hL
  cases invert
  · rw [wroot_false_eq, wroot_false_eq, cexpI_nat_pow]
    congr 1
    push_cast
    field_simp
    ring
  · rw [wroot_true_eq, wroot_true_eq, cexpI_nat_pow]
    congr 1
    push_cast
    field_simp
    ring

/-- The twiddle factor of a block raised to the block length is 1. -/
theorem wroot_pow_len (invert : Bool) (L : ℕ) (hL : L ≠ 0) :
    wroot invert L ^ L = 1 := by
  have hL' : (L : ℝ) ≠ 0 := Nat.cast_ne_zero.mpr hL
  cases invert
  · rw [wroot_false_eq, cexpI_nat_pow,
      show (L : ℝ) * (2 * Real.pi / L) = 2 * Real.pi from by field_simp]
    exact cexpI_two_pi
  · rw [wroot_true_eq, cexpI_nat_pow,
      show (L : ℝ) * -(2 * Real.pi / (L : ℝ)) = -(2 * Real.pi) from by field_simp; ring]
    exact cexpI_neg_two_pi

/-- The twiddle factor of a doubled block raised to the block length
is -1. -/
theorem wroot_double_pow_half (invert : Bool) (L : ℕ) (hL : L ≠ 0) :
    wroot invert (2 * L) ^ L = -1 := by
  have hL' : (L : ℝ) ≠ 0 := Nat.cast_ne_zero.mpr hL
  cases invert
  · rw [wroot_false_eq, cexpI_nat_pow,
      show (L : ℝ) * (2 * Real.pi / ((2 * L : ℕ) : ℝ)) = Real.pi from by push_cast; field_simp; ring]
    exact cexpI_pi
  · rw [wroot_true_eq, cexpI_nat_pow,
      show (L : ℝ) * -(2 * Real.pi / ((2 * L : ℕ) : ℝ)) = -Real.pi from by
        push_cast; field_simp; ring]
    exact cexpI_neg_pi

/-- Stage invariant of the iterative FFT: after the bit-reversal pass
and the butterfly stages up to block length 2^l, the block of q holds
the 2^l-point discrete Fourier transform of the stride-decimated input
subsequence selected by the reversed bits of q. -/
theorem fftStages_invariant (invert : Bool) (x : ℕ → ℂ) (lg : ℕ) :
    ∀ l, l ≤ lg → ∀ q j, q < 2 ^ (lg - l) → j < 2 ^ l →
      fftStages invert l (bitRevPerm lg x) (q * 2 ^ l + j) =
        ∑ m ∈ Finset.range (2 ^ l),
          x (m * 2 ^ (lg - l) + revBits (lg - l) q) * wroot invert (2 ^ l) ^ (j * m) := by
  intro l
  induction l with
  | zero =>
    intro _ q j hq hj
    obtain rfl : j = 0 := by omega
    simp [fftStages, bitRevPerm]
  | succ l ih =>
    intro hl q j hq hj
    have hl2 : lg - l = (lg - (l + 1)) + 1 := by omega
    have hLne : (2 : ℕ) ^ l ≠ 0 := (pow_pos (by norm_num : (0 : ℕ) < 2) l).ne'
    have hpow : (2 : ℕ) ^ (l + 1) = 2 * 2 ^ l := by ring
    have hhalf : 2 ^ (l + 1) / 2 = 2 ^ l := by
      rw [hpow]
      exact Nat.mul_div_cancel_left _ (by norm_num)
    have hmod : (q * 2 ^ (l + 1) + j) % 2 ^ (l + 1) = j := by
      rw [mul_comm, Nat.mul_add_mod, Nat.mod_eq_of_lt hj]
    have hsplit2 : 2 ^ (lg - l) = 2 * 2 ^ (lg - (l + 1)) := by
      rw [hl2]
      ring
    have h2q : 2 * q < 2 ^ (lg - l) := by omega
    have h2q1 : 2 * q + 1 < 2 ^ (lg - l) := by omega
    by_cases hjl : j < 2 ^ l
    · show butterflyStage (2 ^ (l + 1)) (wroot invert (2 ^ (l + 1)))
        (fftStages invert l (bitRevPerm lg x)) (q * 2 ^ (l + 1) + j) = _
      simp only [butterflyStage]
      rw [hmod, hhalf, if_pos hjl]
      rw [show q * 2 ^ (l + 1) + j = 2 * q * 2 ^ l + j from by ring]
      rw [show 2 * q * 2 ^ l + j + 2 ^ l = (2 * q + 1) * 2 ^ l + j from by ring]
      rw [ih (by omega) (2 * q) j h2q hjl, ih (by omega) (2 * q + 1) j h2q1 hjl]
      rw [hl2, revBits_two_mul, revBits_two_mul_add_one]
      rw [hpow, sum_range_even_odd]
      have heven : ∀ m ∈ Finset.range (2 ^ l),
          x (2 * m * 2 ^ (lg - (l + 1)) + revBits (lg - (l + 1)) q) *
            wroot invert (2 * 2 ^ l) ^ (j * (2 * m)) =
          x (m * 2 ^ ((lg - (l + 1)) + 1) + revBits (lg - (l + 1)) q) *
            wroot invert (2 ^ l) ^ (j * m) := by
        intro m _
        have hw : wroot invert (2 * 2 ^ l) ^ (j * (2 * m)) =
            wroot invert (2 ^ l) ^ (j * m) := by
          rw [show j * (2 * m) = 2 * (j * m) from by ring, pow_mul,
            wroot_sq invert (2 ^ l) hLne]
        rw [show 2 * m * 2 ^ (lg - (l + 1)) = m * 2 ^ ((lg - (l + 1)) + 1) from by ring, hw]
      have hodd : ∀ m ∈ Finset.range (2 ^ l),
          x ((2 * m + 1) * 2 ^ (lg - (l + 1)) + revBits (lg - (l + 1)) q) *
            wroot invert (2 * 2 ^ l) ^ (j * (2 * m + 1)) =
          wroot invert (2 * 2 ^ l) ^ j *
            (x (m * 2 ^ ((lg - (l + 1)) + 1) +
                (2 ^ (lg - (l + 1)) + revBits (lg - (l + 1)) q)) *
              wroot invert (2 ^ l) ^ (j * m)) := by
        intro m _
        have hw : wroot invert (2 * 2 ^ l) ^ (j * (2 * m + 1)) =
            wroot invert (2 ^ l) ^ (j * m) * wroot invert (2 * 2 ^ l) ^ j := by
          rw [show j * (2 * m + 1) = 2 * (j * m) + j from by ring, pow_add, pow_mul,
            wroot_sq invert (2 ^ l) hLne]
        rw [show (2 * m + 1) * 2 ^ (lg - (l + 1)) + revBits (lg - (l + 1)) q
            = m * 2 ^ ((lg - (l + 1)) + 1) +
              (2 ^ (lg - (l + 1)) + revBits (lg - (l + 1)) q) from by ring, hw]
        ring
      rw [Finset.sum_congr rfl heven, Finset.sum_congr rfl hodd, ← Finset.mul_sum]
    · obtain ⟨j0, rfl⟩ : ∃ j0, j = 2 ^ l + j0 := ⟨j - 2 ^ l, by omega⟩
      have hj0 : j0 < 2 ^ l := by omega
      show butterflyStage (2 ^ (l + 1)) (wroot invert (2 ^ (l + 1)))
        (fftStages invert l (bitRevPerm lg x)) (q * 2 ^ (l + 1) + (2 ^ l + j0)) = _
      simp only [butterflyStage]
      rw [hmod, hhalf, if_neg (by omega)]
      rw [show 2 ^ l + j0 - 2 ^ l = j0 from by omega]
      rw [show q * 2 ^ (l + 1) + (2 ^ l + j0) - 2 ^ l = 2 * q * 2 ^ l + j0 from by
        rw [show q * 2 ^ (l + 1) + (2 ^ l + j0) = 2 * q * 2 ^ l + j0 + 2 ^ l from by ring]
        simp]
      rw [show q * 2 ^ (l + 1) + (2 ^ l + j0) = (2 * q + 1) * 2 ^ l + j0 from by ring]
      rw [ih (by omega) (2 * q) j0 h2q hj0, ih (by omega) (2 * q + 1) j0 h2q1 hj0]
      rw [hl2, revBits_two_mul, revBits_two_mul_add_one]
      rw [hpow, sum_range_even_odd]
      have heven : ∀ m ∈ Finset.range (2 ^ l),
          x (2 * m * 2 ^ (lg - (l + 1)) + revBits (lg - (l + 1)) q) *
            wroot invert (2 * 2 ^ l) ^ ((2 ^ l + j0) * (2 * m)) =
          x (m * 2 ^ ((lg - (l + 1)) + 1) + revBits (lg - (l + 1)) q) *
            wroot invert (2 ^ l) ^ (j0 * m) := by
        intro m _
        have hw : wroot invert (2 * 2 ^ l) ^ ((2 ^ l + j0) * (2 * m)) =
            wroot invert (2 ^ l) ^ (j0 * m) := by
          rw [show (2 ^ l + j0) * (2 * m) = 2 * (2 ^ l * m + j0 * m) from by ring, pow_mul,
            wroot_sq invert (2 ^ l) hLne, pow_add, pow_mul,
            wroot_pow_len invert (2 ^ l) hLne, one_pow, one_mul]
        rw [show 2 * m * 2 ^ (lg - (l + 1)) = m * 2 ^ ((lg - (l + 1)) + 1) from by ring, hw]
      have hodd : ∀ m ∈ Finset.range (2 ^ l),
          x ((2 * m + 1) * 2 ^ (lg - (l + 1)) + revBits (lg - (l + 1)) q) *
            wroot invert (2 * 2 ^ l) ^ ((2 ^ l + j0) * (2 * m + 1)) =
          -(wroot invert (2 * 2 ^ l) ^ j0) *
            (x (m * 2 ^ ((lg - (l + 1)) + 1) +
                (2 ^ (lg - (l + 1)) + revBits (lg - (l + 1)) q)) *
              wroot invert (2 ^ l) ^ (j0 * m)) := by
        intro m _
        have hw : wroot invert (2 * 2 ^ l) ^ ((2 ^ l + j0) * (2 * m + 1)) =
            -(wroot invert (2 ^ l) ^ (j0 * m) * wroot invert (2 * 2 ^ l) ^ j0) := by
          rw [show (2 ^ l + j0) * (2 * m + 1) = 2 * (2 ^ l * m + j0 * m) + 2 ^ l + j0
            from by ring]
          rw [pow_add, pow_add, pow_mul, wroot_sq invert (2 ^ l) hLne,
            wroot_double_pow_half invert (2 ^ l) hLne, pow_add, pow_mul,
            wroot_pow_len invert (2 ^ l) hLne, one_pow, one_mul]
          ring
        rw [show (2 * m + 1) * 2 ^ (lg - (l + 1)) + revBits (lg - (l + 1)) q
            = m * 2 ^ ((lg - (l + 1)) + 1) +
              (2 ^ (lg - (l + 1)) + revBits (lg - (l + 1)) q) from by ring, hw]
        ring
      rw [Finset.sum_congr rfl heven, Finset.sum_congr rfl hodd, ← Finset.mul_sum]
      ring

/-- On a full power-of-two array the stages compute the discrete
Fourier transform with root wroot invert n. -/
theorem fftStages_dft (invert : Bool) (x : ℕ → ℂ) (lg : ℕ) (t : ℕ) (ht : t < 2 ^ lg) :
    fftStages invert lg (bitRevPerm lg x) t =
      ∑ m ∈ Finset.range (2 ^ lg), x m * wroot invert (2 ^ lg) ^ (t * m) := by
  have h := fftStages_invariant invert x lg lg le_rfl 0 t (by simp) ht
  simpa [revBits] using h

/-- An integer multiple of the full angle gives 1. -/
theorem cexpI_int_mul_two_pi (k : ℤ) : cexpI ((k : ℝ) * (2 * Real.pi)) = 1 := by
  unfold cexpI
  rw [show (((k : ℝ) * (2 * Real.pi) : ℝ) : ℂ) * Complex.I
      = (k : ℂ) * (2 * (Real.pi : ℂ) * Complex.I) from by push_cast; ring]
  exact Complex.exp_int_mul_two_pi_mul_I k

/-- cexpI r is 1 exactly when the angle is an integer multiple of
2 pi. -/
theorem cexpI_eq_one_iff (r : ℝ) :
    cexpI r = 1 ↔ ∃ k : ℤ, r = (k : ℝ) * (2 * Real.pi) := by
  unfold cexpI
  rw [Complex.exp_eq_one_iff]
  constructor
  · rintro ⟨k, hk⟩
    refine ⟨k, ?_⟩
    have hk2 : (r : ℂ) * Complex.I = (((k : ℝ) * (2 * Real.pi) : ℝ) : ℂ) * Complex.I := by
      rw [hk]; push_cast; ring
    have := mul_right_cancel₀ Complex.I_ne_zero hk2
    exact_mod_cast this
  · rintro ⟨k, rfl⟩
    exact ⟨k, by push_cast; ring⟩

/-- Orthogonality of the forward and inverse twiddle rows: the inner
product of row m of the forward transform with row t of the inverse
transform is n when m = t and 0 otherwise. -/
theorem wroot_orthogonality (lg : ℕ) (t m : ℕ) (ht : t < 2 ^ lg) (hm : m < 2 ^ lg) :
    ∑ j ∈ Finset.range (2 ^ lg),
        wroot false (2 ^ lg) ^ (j * m) * wroot true (2 ^ lg) ^ (t * j) =
      if m = t then ((2 ^ lg : ℕ) : ℂ) else 0 := by
  have hn : (0 : ℕ) < 2 ^ lg := pow_pos (by norm_num) lg
  have hn' : ((2 ^ lg : ℕ) : ℝ) ≠ 0 := by positivity
  have hterm : ∀ j ∈ Finset.range (2 ^ lg),
      wroot false (2 ^ lg) ^ (j * m) * wroot true (2 ^ lg) ^ (t * j) =
      cexpI (((m : ℝ) - (t : ℝ)) * (2 * Real.pi / ((2 ^ lg : ℕ) : ℝ))) ^ j := by
    intro j _
    rw [wroot_false_eq, wroot_true_eq, cexpI_nat_pow, cexpI_nat_pow, cexpI_nat_pow,
      ← cexpI_add]
    congr 1
    push_cast
    ring
  rw [Finset.sum_congr rfl hterm]
  by_cases hmt : m = t
  · subst hmt
    rw [show ((m : ℝ) - (m : ℝ)) * (2 * Real.pi / ((2 ^ lg : ℕ) : ℝ)) = 0 from by ring,
      cexpI_zero, if_pos rfl]
    simp
  · rw [if_neg hmt]
    have hβn : cexpI (((m : ℝ) - (t : ℝ)) * (2 * Real.pi / ((2 ^ lg : ℕ) : ℝ))) ^ (2 ^ lg)
        = 1 := by
      rw [cexpI_nat_pow]
      rw [show ((2 ^ lg : ℕ) : ℝ) * (((m : ℝ) - (t : ℝ)) *
          (2 * Real.pi / ((2 ^ lg : ℕ) : ℝ))) = ((m : ℝ) - (t : ℝ)) * (2 * Real.pi) from by
        field_simp]
      rw [show ((m : ℝ) - (t : ℝ)) = (((m : ℤ) - (t : ℤ) : ℤ) : ℝ) from by push_cast; ring]
      exact cexpI_int_mul_two_pi _
    have hβ1 : cexpI (((m : ℝ) - (t : ℝ)) * (2 * Real.pi / ((2 ^ lg : ℕ) : ℝ))) ≠ 1 := by
      intro hone
      rw [cexpI_eq_one_iff] at hone
      obtain ⟨k, hk⟩ := hone
      have hθN : 2 * Real.pi / ((2 ^ lg : ℕ) : ℝ) * ((2 ^ lg : ℕ) : ℝ) = 2 * Real.pi :=
        div_mul_cancel₀ _ hn'
      have hmt2 : ((m : ℝ) - (t : ℝ)) = (k : ℝ) * ((2 ^ lg : ℕ) : ℝ) := by
        have h3 : ((m : ℝ) - (t : ℝ)) * (2 * Real.pi)
            = ((k : ℝ) * ((2 ^ lg : ℕ) : ℝ)) * (2 * Real.pi) := by
          calc ((m : ℝ) - (t : ℝ)) * (2 * Real.pi)
              = ((m : ℝ) - (t : ℝ)) * (2 * Real.pi / ((2 ^ lg : ℕ) : ℝ)) *
                  ((2 ^ lg : ℕ) : ℝ) := by rw [mul_assoc, hθN]
            _ = (k : ℝ) * (2 * Real.pi) * ((2 ^ lg : ℕ) : ℝ) := by rw [hk]
            _ = ((k : ℝ) * ((2 ^ lg : ℕ) : ℝ)) * (2 * Real.pi) := by ring
        exact mul_right_cancel₀ (by positivity) h3
      have hint : (m : ℤ) - (t : ℤ) = k * (2 ^ lg : ℕ) := by exact_mod_cast hmt2
      have hmz : (m : ℤ) < (2 ^ lg : ℕ) := by exact_mod_cast hm
      have htz : (t : ℤ) < (2 ^ lg : ℕ) := by exact_mod_cast ht
      have hmtz : (m : ℤ) ≠ (t : ℤ) := by exact_mod_cast hmt
      rcases lt_trichotomy k 0 with hk0 | hk0 | hk0
      · have hk1 : k ≤ -1 := by omega
        have : k * ((2 ^ lg : ℕ) : ℤ) ≤ -1 * ((2 ^ lg : ℕ) : ℤ) := by
          apply mul_le_mul_of_nonneg_right hk1
          exact_mod_cast hn.le
        omega
      · subst hk0
        omega
      · have hk1 : 1 ≤ k := by omega
        have : 1 * ((2 ^ lg : ℕ) : ℤ) ≤ k * ((2 ^ lg : ℕ) : ℤ) := by
          apply mul_le_mul_of_nonneg_right hk1
          exact_mod_cast hn.le
        omega
    rw [geom_sum_eq hβ1, hβn]
    simp

/-- C3: on any power-of-two length, running the inverse fft (which
divides by n) after the forward fft reproduces the input exactly at
every index of the array; the exact-arithmetic model makes the
floating-point tolerance of the claim an equality. -/
theorem fft_roundtrip (x : ℕ → ℂ) (lg : ℕ) (t : ℕ) (ht : t < 2 ^ lg) :
    fft (2 ^ lg) true (fft (2 ^ lg) false x) t = x t := by
  have hn : (0 : ℕ) < 2 ^ lg := pow_pos (by norm_num) lg
  have hlog : Nat.log 2 (2 ^ lg) = lg := Nat.log_pow (by norm_num) lg
  have hclog : Nat.clog 2 (2 ^ lg) = lg := Nat.clog_pow 2 lg (by norm_num)
  rw [show fft (2 ^ lg) true (fft (2 ^ lg) false x) t
      = fftStages true lg (bitRevPerm lg (fft (2 ^ lg) false x)) t / ((2 ^ lg : ℕ) : ℂ)
      from by simp [fft, hlog, hclog]]
  rw [show fft (2 ^ lg) false x = fun u => fftStages false lg (bitRevPerm lg x) u from by
    funext u
    simp [fft, hlog, hclog]]
  rw [fftStages_dft true _ lg t ht]
  have hinner : ∀ j ∈ Finset.range (2 ^ lg),
      (fun u => fftStages false lg (bitRevPerm lg x) u) j * wroot true (2 ^ lg) ^ (t * j)
      = ∑ m ∈ Finset.range (2 ^ lg),
          x m * (wroot false (2 ^ lg) ^ (j * m) * wroot true (2 ^ lg) ^ (t * j)) := by
    intro j hj
    show fftStages false lg (bitRevPerm lg x) j * wroot true (2 ^ lg) ^ (t * j) = _
    rw [fftStages_dft false x lg j (Finset.mem_range.mp hj), Finset.sum_mul]
    exact Finset.sum_congr rfl fun m _ => by ring
  rw [Finset.sum_congr rfl hinner, Finset.sum_comm]
  have hswap : ∀ m ∈ Finset.range (2 ^ lg),
      (∑ j ∈ Finset.range (2 ^ lg),
          x m * (wroot false (2 ^ lg) ^ (j * m) * wroot true (2 ^ lg) ^ (t * j)))
      = x m * (if m = t then ((2 ^ lg : ℕ) : ℂ) else 0) := by
    intro m hm
    rw [← Finset.mul_sum, wroot_orthogonality lg t m ht (Finset.mem_range.mp hm)]
  rw [Finset.sum_congr rfl hswap]
  rw [show (∑ m ∈ Finset.range (2 ^ lg),
      x m * (if m = t then ((2 ^ lg : ℕ) : ℂ) else 0)) = x t * ((2 ^ lg : ℕ) : ℂ) from by
    rw [Finset.sum_congr rfl fun m _ => mul_ite (m = t) (x m) ((2 ^ lg : ℕ) : ℂ) 0]
    simp only [mul_zero]
    rw [Finset.sum_ite_eq' (Finset.range (2 ^ lg)) t fun m => x m * ((2 ^ lg : ℕ) : ℂ)]
    rw [if_pos (Finset.mem_range.mpr ht)]]
  exact mul_div_cancel_right₀ (x t) (Nat.cast_ne_zero.mpr hn.ne')

/-- Witness for C3 at the constant array of length 2. -/
theorem fft_roundtrip_witness : fft 2 true (fft 2 false fun _ => (1 : ℂ)) 0 = 1 :=
  fft_roundtrip (fun _ => (1 : ℂ)) 1 0 (by norm_num)

end AudioMatcher
